import Mathlib

/-!
Shallow embedding of the nickname storage service of the telegram nickname bot
(source file: src/storage.py, constants from src/validation.py).

The service keeps an in-memory two-level mapping
group_id -> (user_id -> NicknameEntry) realised as Python dicts, and persists it
to a JSON file after every mutating operation.  Python dicts preserve insertion
order and have unique keys; they are embedded as association lists together with
operations, dictGet / dictInsert / dictErase, that reproduce Python dict lookup,
assignment (replace in place, or append for a fresh key) and deletion.

External effects are made explicit parameters:
  - the wall clock reading datetime.now().isoformat() becomes a String argument;
  - the outcome of each file-write attempt inside save_data becomes a
    function from the attempt index to Bool (the retry loop of the source
    consults only these outcomes);
  - the JSON text parse performed by json.load, an external library call,
    becomes an Option JsonValue: none models a missing file or a
    JSONDecodeError, some j a successfully parsed document j.
-/

/-- Data model for a nickname entry (dataclass NicknameEntry, storage.py lines 17-23). -/
structure NicknameEntry where
  user_id : Int
  username : String
  nickname : String
  added_at : String
deriving DecidableEq, Repr

/-- Per-group mapping user_id -> NicknameEntry: a Python dict embedded as an
insertion-ordered association list with unique keys. -/
abbrev GroupData := List (Int × NicknameEntry)

/-- The whole in-memory state self.data : group_id -> per-group dict. -/
abbrev StoreData := List (Int × GroupData)

/-- Python dict lookup d.get(k) / d[k]: the value at the first (in a real dict,
the unique) occurrence of the key. -/
def dictGet {α : Type} (k : Int) : List (Int × α) → Option α
  | [] => none
  | p :: rest => if p.1 = k then some p.2 else dictGet k rest

/-- Python dict assignment d[k] = v: replaces the value in place at an existing
key, keeping its position, and appends a fresh key at the end. -/
def dictInsert {α : Type} (k : Int) (v : α) : List (Int × α) → List (Int × α)
  | [] => [(k, v)]
  | p :: rest => if p.1 = k then (k, v) :: rest else p :: dictInsert k v rest

/-- Python dict deletion del d[k] for a present key. -/
def dictErase {α : Type} (k : Int) : List (Int × α) → List (Int × α)
  | [] => []
  | p :: rest => if p.1 = k then rest else p :: dictErase k rest

/-- Parsed JSON documents as returned by json.load (json.dump writes the same
shape).  Only integers occur as numbers in this file format. -/
inductive JsonValue : Type where
  | jnull : JsonValue
  | jbool : Bool → JsonValue
  | jnum : Int → JsonValue
  | jstr : String → JsonValue
  | jarr : List JsonValue → JsonValue
  | jobj : List (String × JsonValue) → JsonValue

/-- String-keyed variant of dict lookup, for parsed JSON objects. -/
def dictGetS (k : String) : List (String × JsonValue) → Option JsonValue
  | [] => none
  | p :: rest => if p.1 = k then some p.2 else dictGetS k rest

/-- Retry bound max_retries = 3 of both load_data and save_data. -/
def max_retries : Nat := 3

/-- Configured maximum nickname length MAX_NICKNAME_LENGTH (validation.py line 13). -/
def MAX_NICKNAME_LENGTH : Nat := 50

/-- Outcome of StorageService.save_data (storage.py lines 122-167): the retry
loop makes up to max_retries write attempts and reports True as soon as one
succeeds, False once all fail.  The attempt outcomes are environment events,
passed in as a function of the attempt index.  (The serialisation-error exits of
the source cannot fire here: asdict on a well-typed dataclass never fails.) -/
def save_data (attempt : Nat → Bool) : Bool :=
  (List.range max_retries).any attempt

/-- StorageService.add_nickname (storage.py lines 169-228).  Validation: the
id arguments are integers by type; an empty username or nickname is rejected
(Python falsiness of a str).  A missing group entry is created, a duplicate
user is rejected, otherwise the new entry is stored with added_at = now and a
save is attempted; the save outcome is only logged, never consulted. -/
def add_nickname (attempt : Nat → Bool) (st : StoreData) (group_id user_id : Int)
    (username nickname now : String) : Bool × StoreData :=
  if username = "" then (false, st)
  else if nickname = "" then (false, st)
  else
    let st1 := if (dictGet group_id st).isNone then dictInsert group_id ([] : GroupData) st else st
    let gd := (dictGet group_id st1).getD []
    if (dictGet user_id gd).isSome then
      (false, st1)
    else
      let entry : NicknameEntry := ⟨user_id, username, nickname, now⟩
      let st2 := dictInsert group_id (dictInsert user_id entry gd) st1
      let _ := save_data attempt
      (true, st2)

/-- StorageService.get_nickname (storage.py lines 230-244). -/
def get_nickname (st : StoreData) (group_id user_id : Int) : Option NicknameEntry :=
  match dictGet group_id st with
  | none => none
  | some gd => dictGet user_id gd

/-- Comparison key of the sort in get_all_nicknames: Python compares the
added_at strings lexicographically by code point, as Lean's String order does. -/
def entryLe (a b : NicknameEntry) : Bool :=
  decide (a.added_at ≤ b.added_at)

/-- StorageService.get_all_nicknames (storage.py lines 246-262): the list of the
group's entries in dict (= insertion) order, stable-sorted by added_at. -/
def get_all_nicknames (st : StoreData) (group_id : Int) : List NicknameEntry :=
  match dictGet group_id st with
  | none => []
  | some gd => (gd.map Prod.snd).mergeSort entryLe

/-- StorageService.update_nickname (storage.py lines 264-309): rejects an empty
new nickname, fails when no record exists, otherwise overwrites only the
nickname field of the stored entry in place and attempts a save. -/
def update_nickname (attempt : Nat → Bool) (st : StoreData) (group_id user_id : Int)
    (new_nickname : String) : Bool × StoreData :=
  if new_nickname = "" then (false, st)
  else
    match dictGet group_id st with
    | none => (false, st)
    | some gd =>
      match dictGet user_id gd with
      | none => (false, st)
      | some entry =>
        let st2 := dictInsert group_id
          (dictInsert user_id { entry with nickname := new_nickname } gd) st
        let _ := save_data attempt
        (true, st2)

/-- StorageService.remove_nickname (storage.py lines 311-355): fails when no
record exists, otherwise deletes the record, drops the group entry when its
dict became empty, and attempts a save. -/
def remove_nickname (attempt : Nat → Bool) (st : StoreData) (group_id user_id : Int) :
    Bool × StoreData :=
  match dictGet group_id st with
  | none => (false, st)
  | some gd =>
    match dictGet user_id gd with
    | none => (false, st)
    | some _ =>
      let gd2 := dictErase user_id gd
      let st2 := if gd2.isEmpty then dictErase group_id st else dictInsert group_id gd2 st
      let _ := save_data attempt
      (true, st2)

/-- StorageService.has_nickname (storage.py lines 357-369). -/
def has_nickname (st : StoreData) (group_id user_id : Int) : Bool :=
  match dictGet group_id st with
  | none => false
  | some gd => (dictGet user_id gd).isSome

/-- StorageService.get_group_count (storage.py lines 371-384). -/
def get_group_count (st : StoreData) (group_id : Int) : Nat :=
  match dictGet group_id st with
  | none => 0
  | some gd => gd.length

/-- Decimal digit characters, as written by Python str on integers. -/
def digitChar (d : Nat) : Char :=
  match d with
  | 0 => '0' | 1 => '1' | 2 => '2' | 3 => '3' | 4 => '4'
  | 5 => '5' | 6 => '6' | 7 => '7' | 8 => '8' | _ => '9'

/-- Big-endian decimal digits of a natural number (str(n) for n >= 0).  Models
the Python str builtin, which is external library code. -/
def encNatChars (n : Nat) : List Char :=
  if _h : n < 10 then [digitChar n]
  else encNatChars (n / 10) ++ [digitChar (n % 10)]
decreasing_by exact Nat.div_lt_self (by omega) (by omega)

/-- Whether a character is an ASCII decimal digit. -/
def isDigitChar (c : Char) : Bool :=
  decide ('0' ≤ c) && decide (c ≤ '9')

/-- Value of a big-endian digit string, most significant first. -/
def valNatChars (cs : List Char) : Nat :=
  cs.foldl (fun a c => a * 10 + (c.toNat - 48)) 0

/-- Parse of a non-negative decimal numeral.  Models the Python int builtin
(external library code) on the canonical digit strings produced by str; int
additionally accepts forms (whitespace, a leading plus, underscores) that never
occur as keys written by save_data. -/
def decNatChars (cs : List Char) : Option Nat :=
  if cs ≠ [] ∧ cs.all isDigitChar then some (valNatChars cs) else none

/-- Character sequence of str(i) for an integer i: a minus sign followed by the
decimal digits of the magnitude when i < 0, plain digits otherwise. -/
def encIntChars (i : Int) : List Char :=
  if i < 0 then '-' :: encNatChars i.natAbs else encNatChars i.toNat

/-- Parse of a signed decimal numeral, as done by int(key) on the string keys of
the persisted JSON object (load_data, storage.py lines 68 and 77). -/
def decIntChars : List Char → Option Int
  | [] => none
  | c :: rest =>
    if c = '-' then (decNatChars rest).map (fun n => -(n : Int))
    else (decNatChars (c :: rest)).map (fun n => (n : Int))

/-- String-level encoding of an integer dict key, str(group_id) / str(user_id)
in save_data (storage.py lines 132 and 135). -/
def encInt (i : Int) : String :=
  ⟨encIntChars i⟩

/-- String-level parse of an integer dict key, int(group_id_str) /
int(user_id_str) in load_data (storage.py lines 68 and 77): none models the
ValueError path. -/
def decInt (s : String) : Option Int :=
  decIntChars s.data

/-- Field name constants of the persisted record object. -/
def key_user_id : String := "user_id"

/-- Field name of the stored display handle. -/
def key_username : String := "username"

/-- Field name of the stored nickname. -/
def key_nickname : String := "nickname"

/-- Field name of the creation timestamp. -/
def key_added_at : String := "added_at"

/-- The required_fields list of load_data (storage.py line 83). -/
def required_fields : List String :=
  [key_user_id, key_username, key_nickname, key_added_at]

/-- Conversion of one parsed record object into a NicknameEntry, as done by the
inner loop of load_data (storage.py lines 78-91): a non-object value, a missing
required field, or an unexpected extra field (a TypeError from the dataclass
call NicknameEntry(**entry_data), caught and skipped) all yield none.  The
Python dataclass does not check field value types; only the serialised types,
the ones save_data ever writes, are representable in this typed model. -/
def entryOfJson (v : JsonValue) : Option NicknameEntry :=
  match v with
  | .jobj fields =>
    if required_fields.all (fun k => (dictGetS k fields).isSome) then
      if fields.all (fun p => p.1 ∈ required_fields) then
        match dictGetS key_user_id fields, dictGetS key_username fields,
              dictGetS key_nickname fields, dictGetS key_added_at fields with
        | some (.jnum uid), some (.jstr un), some (.jstr nk), some (.jstr ts) =>
          some ⟨uid, un, nk, ts⟩
        | _, _, _, _ => none
      else none
    else none
  | _ => none

/-- Inner loop of load_data over one conversation object (storage.py lines
73-91): starting from the fresh dict self.data[group_id] = {}, every user entry
whose key parses as an integer and whose value converts to a NicknameEntry is
stored; all others are skipped. -/
def groupFieldsLoad (ufields : List (String × JsonValue)) : GroupData :=
  ufields.foldl
    (fun gd p =>
      match decInt p.1 with
      | none => gd
      | some u =>
        match entryOfJson p.2 with
        | none => gd
        | some e => dictInsert u e gd)
    []

/-- Conversion of a whole parsed document, the outer loop of load_data
(storage.py lines 62-94): a non-object document raises ValueError, which the
catch-all handler turns into an empty mapping; a conversation whose key does not
parse as an integer or whose value is not an object is skipped. -/
def loadJson (j : JsonValue) : StoreData :=
  match j with
  | .jobj groups =>
    groups.foldl
      (fun st p =>
        match decInt p.1 with
        | none => st
        | some g =>
          match p.2 with
          | .jobj ufields => dictInsert g (groupFieldsLoad ufields) st
          | _ => st)
      []
  | _ => []

/-- StorageService.load_data (storage.py lines 50-120) as a function of the
parse outcome of the backing file: none covers a missing file and a
JSONDecodeError (both leave the store empty, storage.py lines 99-103, as does
the exhausted-retries filesystem-error path), some j a successfully parsed
document. -/
def load_data (parsed : Option JsonValue) : StoreData :=
  match parsed with
  | none => []
  | some j => loadJson j

/-- Serialisation of one entry by save_data via asdict (storage.py line 135). -/
def serializeEntry (e : NicknameEntry) : JsonValue :=
  .jobj [(key_user_id, .jnum e.user_id), (key_username, .jstr e.username),
         (key_nickname, .jstr e.nickname), (key_added_at, .jstr e.added_at)]

/-- The serialisable document built by save_data (storage.py lines 130-138) and
written by json.dump: both key levels string-encoded, entries as field objects,
iteration in dict (= insertion) order. -/
def serializeData (st : StoreData) : JsonValue :=
  .jobj (st.map (fun p =>
    (encInt p.1, .jobj (p.2.map (fun q => (encInt q.1, serializeEntry q.2))))))

/-- One mutating call against the store, with its external inputs (attempt
outcomes of the triggered save, wall-clock reading for add). -/
inductive StoreOp : Type where
  | addOp : (Nat → Bool) → Int → Int → String → String → String → StoreOp
  | updateOp : (Nat → Bool) → Int → Int → String → StoreOp
  | removeOp : (Nat → Bool) → Int → Int → StoreOp

/-- State reached after one mutating call. -/
def applyOp (st : StoreData) : StoreOp → StoreData
  | .addOp attempt g u un nk now => (add_nickname attempt st g u un nk now).2
  | .updateOp attempt g u nk => (update_nickname attempt st g u nk).2
  | .removeOp attempt g u => (remove_nickname attempt st g u).2

/-- State reached after a sequence of mutating calls. -/
def runOps (st : StoreData) (ops : List StoreOp) : StoreData :=
  ops.foldl applyOp st

/-- Key uniqueness at both levels: automatic for the Python dicts the lists
embed, and the only store states that correspond to a Python state. -/
def WFStore (st : StoreData) : Prop :=
  (st.map Prod.fst).Nodup ∧ ∀ p ∈ st, (p.2.map Prod.fst).Nodup

/-- Every stored nickname is non-empty and within the configured bound. -/
def NickOK (st : StoreData) : Prop :=
  ∀ p ∈ st, ∀ q ∈ p.2, q.2.nickname ≠ "" ∧ q.2.nickname.length ≤ MAX_NICKNAME_LENGTH

/-- No conversation entry with an empty per-conversation map. -/
def NoEmptyGroups (st : StoreData) : Prop :=
  ∀ p ∈ st, p.2 ≠ []

/-- States reachable from the empty store by mutating calls whose nickname
arguments are non-empty and within the configured maximum length (the shape of
every nickname the handlers pass on after validate_nickname). -/
inductive ReachableValid : StoreData → Prop where
  | init : ReachableValid []
  | addStep (attempt : Nat → Bool) (st : StoreData) (g u : Int) (un nk now : String)
      (hnk : nk ≠ "" ∧ nk.length ≤ MAX_NICKNAME_LENGTH) (h : ReachableValid st) :
      ReachableValid (add_nickname attempt st g u un nk now).2
  | updateStep (attempt : Nat → Bool) (st : StoreData) (g u : Int) (nk : String)
      (hnk : nk ≠ "" ∧ nk.length ≤ MAX_NICKNAME_LENGTH) (h : ReachableValid st) :
      ReachableValid (update_nickname attempt st g u nk).2
  | removeStep (attempt : Nat → Bool) (st : StoreData) (g u : Int)
      (h : ReachableValid st) :
      ReachableValid (remove_nickname attempt st g u).2

/-- States reachable from the empty store by arbitrary mutating calls. -/
inductive ReachableOp : StoreData → Prop where
  | init : ReachableOp []
  | addStep (attempt : Nat → Bool) (st : StoreData) (g u : Int) (un nk now : String)
      (h : ReachableOp st) :
      ReachableOp (add_nickname attempt st g u un nk now).2
  | updateStep (attempt : Nat → Bool) (st : StoreData) (g u : Int) (nk : String)
      (h : ReachableOp st) :
      ReachableOp (update_nickname attempt st g u nk).2
  | removeStep (attempt : Nat → Bool) (st : StoreData) (g u : Int)
      (h : ReachableOp st) :
      ReachableOp (remove_nickname attempt st g u).2

/-- A 51-character nickname, one character over MAX_NICKNAME_LENGTH. -/
def nick51 : String :=
  "aaaaaaaaaaaaaaaaaaaaaaaaaaaaaaaaaaaaaaaaaaaaaaaaaaa"


/-- The records currently stored for a conversation, in dict (= insertion)
order: the list self.data[group_id].values() that get_all_nicknames sorts. -/
def groupEntries (st : StoreData) (group_id : Int) : List NicknameEntry :=
  match dictGet group_id st with
  | none => []
  | some gd => gd.map Prod.snd

/-- Sample record of user 111 for concrete instantiations. -/
def sampleEntryA : NicknameEntry :=
  ⟨111, ("alice"), ("Ally"), ("t1")⟩

/-- Sample record of user 222 for concrete instantiations. -/
def sampleEntryB : NicknameEntry :=
  ⟨222, ("bob"), ("Bobby"), ("t2")⟩

/-- Sample one-record store for concrete instantiations. -/
def sampleStore : StoreData :=
  [(-100, [(111, sampleEntryA)])]

/-- Sample two-record conversation, user 111 inserted first. -/
def sampleStoreAB : StoreData :=
  [(-100, [(111, sampleEntryA), (222, sampleEntryB)])]

/-- The same two records held in the opposite map order. -/
def sampleStoreBA : StoreData :=
  [(-100, [(222, sampleEntryB), (111, sampleEntryA)])]

theorem dictGet_insert_self {α : Type} (k : Int) (v : α) (m : List (Int × α)) :
    dictGet k (dictInsert k v m) = some v := by
  induction m with
  | nil => simp [dictGet, dictInsert]
  | cons p rest ih =>
    obtain ⟨a, b⟩ := p
    by_cases hp : a = k
    · subst hp
      simp [dictGet, dictInsert]
    · simp [dictGet, dictInsert, hp, ih]

theorem dictGet_insert_ne {α : Type} {k k' : Int} (v : α) (m : List (Int × α))
    (h : k' ≠ k) : dictGet k' (dictInsert k v m) = dictGet k' m := by
  induction m with
  | nil => simp [dictGet, dictInsert, Ne.symm h]
  | cons p rest ih =>
    obtain ⟨a, b⟩ := p
    by_cases hp : a = k
    · subst hp
      simp [dictGet, dictInsert, Ne.symm h]
    · by_cases hp' : a = k'
      · simp [dictGet, dictInsert, hp, hp', h]
      · simp [dictGet, dictInsert, hp, hp', ih]

theorem dictGet_eq_none_iff {α : Type} (k : Int) (m : List (Int × α)) :
    dictGet k m = none ↔ k ∉ m.map Prod.fst := by
  induction m with
  | nil => simp [dictGet]
  | cons p rest ih =>
    obtain ⟨a, b⟩ := p
    by_cases hp : a = k
    · subst hp
      simp [dictGet]
    · simp [dictGet, hp, ih, Ne.symm hp]

theorem dictGet_isSome_iff {α : Type} (k : Int) (m : List (Int × α)) :
    (dictGet k m).isSome = true ↔ k ∈ m.map Prod.fst := by
  rcases h : dictGet k m with _ | v
  · rw [dictGet_eq_none_iff] at h
    simp [h]
  · have h2 : dictGet k m ≠ none := by simp [h]
    rw [ne_eq, dictGet_eq_none_iff, not_not] at h2
    simp [h2]

theorem dictGet_mem {α : Type} {k : Int} {v : α} {m : List (Int × α)}
    (h : dictGet k m = some v) : (k, v) ∈ m := by
  induction m with
  | nil => simp [dictGet] at h
  | cons p rest ih =>
    obtain ⟨a, b⟩ := p
    by_cases hp : a = k
    · subst hp
      simp only [dictGet, if_pos] at h
      obtain rfl : b = v := by simpa using h
      exact List.mem_cons_self _ _
    · simp only [dictGet, if_neg hp] at h
      exact List.mem_cons_of_mem _ (ih h)

theorem dictInsert_of_get_none {α : Type} {k : Int} (v : α) {m : List (Int × α)}
    (h : dictGet k m = none) : dictInsert k v m = m ++ [(k, v)] := by
  induction m with
  | nil => simp [dictInsert]
  | cons p rest ih =>
    obtain ⟨a, b⟩ := p
    by_cases hp : a = k
    · subst hp
      simp [dictGet] at h
    · simp only [dictGet, if_neg hp] at h
      simp [dictInsert, hp, ih h]

theorem dictInsert_dictInsert {α : Type} (k : Int) (v v' : α) (m : List (Int × α)) :
    dictInsert k v' (dictInsert k v m) = dictInsert k v' m := by
  induction m with
  | nil => simp [dictInsert]
  | cons p rest ih =>
    obtain ⟨a, b⟩ := p
    by_cases hp : a = k
    · subst hp
      simp [dictInsert]
    · simp [dictInsert, hp, ih]

theorem mem_dictInsert {α : Type} {x : Int × α} {k : Int} {v : α} {m : List (Int × α)}
    (h : x ∈ dictInsert k v m) : x = (k, v) ∨ x ∈ m := by
  induction m with
  | nil => simpa [dictInsert] using h
  | cons p rest ih =>
    obtain ⟨a, b⟩ := p
    by_cases hp : a = k
    · subst hp
      simp only [dictInsert, if_pos] at h
      rcases List.mem_cons.mp h with h1 | h1
      · exact Or.inl h1
      · exact Or.inr (List.mem_cons_of_mem _ h1)
    · simp only [dictInsert, if_neg hp] at h
      rcases List.mem_cons.mp h with h1 | h1
      · exact Or.inr (h1 ▸ List.mem_cons_self _ _)
      · rcases ih h1 with h2 | h2
        · exact Or.inl h2
        · exact Or.inr (List.mem_cons_of_mem _ h2)

theorem dictErase_sublist {α : Type} (k : Int) (m : List (Int × α)) :
    (dictErase k m).Sublist m := by
  induction m with
  | nil => simp [dictErase]
  | cons p rest ih =>
    by_cases hp : p.1 = k
    · simpa [dictErase, hp] using List.sublist_cons_self p rest
    · simpa [dictErase, hp] using List.Sublist.cons₂ p ih

theorem mem_dictErase {α : Type} {x : Int × α} {k : Int} {m : List (Int × α)}
    (h : x ∈ dictErase k m) : x ∈ m :=
  (dictErase_sublist k m).mem h

theorem keys_dictInsert_of_mem {α : Type} {k : Int} (v : α) {m : List (Int × α)}
    (h : k ∈ m.map Prod.fst) :
    (dictInsert k v m).map Prod.fst = m.map Prod.fst := by
  induction m with
  | nil => simp at h
  | cons p rest ih =>
    obtain ⟨a, b⟩ := p
    by_cases hp : a = k
    · subst hp
      simp [dictInsert]
    · simp only [List.map_cons, List.mem_cons] at h
      rcases h with h1 | h1
      · exact absurd h1.symm hp
      · simp [dictInsert, hp, ih h1]

theorem keys_dictErase_sublist {α : Type} (k : Int) (m : List (Int × α)) :
    ((dictErase k m).map Prod.fst).Sublist (m.map Prod.fst) :=
  (dictErase_sublist k m).map Prod.fst

theorem length_dictErase_of_get_some {α : Type} {k : Int} {v : α} {m : List (Int × α)}
    (h : dictGet k m = some v) : (dictErase k m).length + 1 = m.length := by
  induction m with
  | nil => simp [dictGet] at h
  | cons p rest ih =>
    by_cases hp : p.1 = k
    · simp [dictErase, hp]
    · simp only [dictGet, if_neg hp] at h
      simp [dictErase, hp, ih h]

theorem dictGet_erase_ne {α : Type} {k k' : Int} (m : List (Int × α))
    (h : k' ≠ k) : dictGet k' (dictErase k m) = dictGet k' m := by
  induction m with
  | nil => simp [dictErase]
  | cons p rest ih =>
    obtain ⟨a, b⟩ := p
    by_cases hp : a = k
    · subst hp
      simp [dictErase, dictGet, Ne.symm h]
    · by_cases hp' : a = k'
      · simp [dictErase, dictGet, hp, hp', h]
      · simp [dictErase, dictGet, hp, hp', ih]

theorem dictGet_erase_self {α : Type} {k : Int} {m : List (Int × α)}
    (hnd : (m.map Prod.fst).Nodup) : dictGet k (dictErase k m) = none := by
  induction m with
  | nil => simp [dictErase, dictGet]
  | cons p rest ih =>
    obtain ⟨a, b⟩ := p
    simp only [List.map_cons, List.nodup_cons] at hnd
    by_cases hp : a = k
    · subst hp
      rw [dictGet_eq_none_iff]
      simpa [dictErase] using hnd.1
    · simp [dictErase, dictGet, hp, ih hnd.2]

theorem dictGet_append {α : Type} (k : Int) (m1 m2 : List (Int × α)) :
    dictGet k (m1 ++ m2) = (dictGet k m1).or (dictGet k m2) := by
  induction m1 with
  | nil => simp [dictGet]
  | cons p rest ih =>
    by_cases hp : p.1 = k
    · simp [dictGet, hp]
    · simp [dictGet, hp, ih]

theorem add_nickname_eq (attempt : Nat → Bool) (st : StoreData) (g u : Int)
    (un nk now : String) :
    add_nickname attempt st g u un nk now =
      if un = "" then (false, st)
      else if nk = "" then (false, st)
      else if (dictGet u ((dictGet g st).getD [])).isSome then (false, st)
      else (true, dictInsert g (dictInsert u ⟨u, un, nk, now⟩ ((dictGet g st).getD [])) st) := by
  unfold add_nickname
  by_cases hun : un = ""
  · simp [hun]
  · by_cases hnk : nk = ""
    · simp [hun, hnk]
    · simp only [if_neg hun, if_neg hnk]
      rcases hg : dictGet g st with _ | gd0
      · simp only [hg, Option.isNone_none, if_true, Option.getD_none,
          dictGet_insert_self, Option.getD_some, dictGet, Option.isSome_none,
          Bool.false_eq_true, if_false, dictInsert_dictInsert]
      · simp [hg]

/-- C10: the read operations agree with each other: has_nickname holds exactly
when get_nickname finds a record, and get_group_count equals the length of the
get_all_nicknames listing.  All four reads are embedded as pure functions of the
state, mirroring the source methods, which perform no mutation. -/
theorem read_ops_agree (st : StoreData) (g u : Int) :
    (has_nickname st g u = true ↔ (get_nickname st g u).isSome = true) ∧
    get_group_count st g = (get_all_nicknames st g).length := by
  constructor
  · rcases h : dictGet g st with _ | gd <;>
      simp [has_nickname, get_nickname, h]
  · rcases h : dictGet g st with _ | gd <;>
      simp [get_group_count, get_all_nicknames, h]

/-- C3: after a successful add for a pair, a second add for the same pair, with
any arguments and any save outcomes, returns false and leaves the whole store
state, in particular the originally stored record with its four fields,
unchanged. -/
theorem add_duplicate_spec (attempt attempt2 : Nat → Bool) (st st' : StoreData)
    (g u : Int) (un nk now un2 nk2 now2 : String)
    (h : add_nickname attempt st g u un nk now = (true, st')) :
    get_nickname st' g u = some ⟨u, un, nk, now⟩ ∧
    add_nickname attempt2 st' g u un2 nk2 now2 = (false, st') := by
  rw [add_nickname_eq] at h
  split_ifs at h with h1 h2 h3
  · simp at h
  · simp at h
  · simp at h
  · have hst' : st' = dictInsert g (dictInsert u ⟨u, un, nk, now⟩ ((dictGet g st).getD [])) st := by
      have := congrArg Prod.snd h
      simpa using this.symm
    have hget : dictGet g st' =
        some (dictInsert u ⟨u, un, nk, now⟩ ((dictGet g st).getD [])) := by
      rw [hst']
      exact dictGet_insert_self g _ st
    have hdup : (dictGet u ((dictGet g st').getD [])).isSome = true := by
      rw [hget, Option.getD_some, dictGet_insert_self]
      rfl
    refine ⟨?_, ?_⟩
    · simp [get_nickname, hget, dictGet_insert_self]
    · rw [add_nickname_eq]
      simp [hdup]

/-- C4: update with an existing record and a valid (non-empty) new nickname
returns true and replaces only the nickname field, preserving user_id, username
and added_at and every other record of the store; with no existing record, or an
empty new nickname, it returns false and leaves the state unchanged. -/
theorem update_nickname_spec (attempt : Nat → Bool) (st : StoreData) (g u : Int)
    (newNick : String) :
    (newNick = "" → update_nickname attempt st g u newNick = (false, st)) ∧
    (get_nickname st g u = none → update_nickname attempt st g u newNick = (false, st)) ∧
    (∀ e, get_nickname st g u = some e → newNick ≠ "" →
      (update_nickname attempt st g u newNick).1 = true ∧
      get_nickname (update_nickname attempt st g u newNick).2 g u =
        some ⟨e.user_id, e.username, newNick, e.added_at⟩ ∧
      (∀ g' u', ¬(g' = g ∧ u' = u) →
        get_nickname (update_nickname attempt st g u newNick).2 g' u' =
          get_nickname st g' u')) := by
  refine ⟨?_, ?_, ?_⟩
  · intro he
    simp [update_nickname, he]
  · intro hnone
    rcases hg : dictGet g st with _ | gd
    · simp [update_nickname, hg]
    · simp only [get_nickname, hg] at hnone
      simp [update_nickname, hg, hnone]
  · intro e hsome hne
    rcases hg : dictGet g st with _ | gd
    · simp only [get_nickname, hg] at hsome
      exact absurd hsome (by simp)
    · simp only [get_nickname, hg] at hsome
      have hst2 : update_nickname attempt st g u newNick =
          (true, dictInsert g (dictInsert u { e with nickname := newNick } gd) st) := by
        simp [update_nickname, hne, hg, hsome]
      refine ⟨by simp [hst2], ?_, ?_⟩
      · rw [hst2]
        simp only [get_nickname, dictGet_insert_self]
      · intro g' u' hne'
        rw [hst2]
        by_cases hgg : g' = g
        · subst hgg
          have huu : u' ≠ u := fun hc => hne' ⟨rfl, hc⟩
          simp only [get_nickname, dictGet_insert_self, hg,
            dictGet_insert_ne _ _ huu]
        · simp only [get_nickname, dictGet_insert_ne _ _ hgg]

/-- C5: remove returns false and leaves the state unchanged when no record
exists for the pair; when one exists it returns true, afterwards has_nickname is
false, the conversation entry itself is gone when the removed record was the
last one of the conversation, and a second remove for the same pair returns
false leaving the state unchanged.  Key uniqueness (WFStore) is automatic for
the Python dicts the association lists embed. -/
theorem remove_nickname_spec (attempt attempt2 : Nat → Bool) (st : StoreData)
    (g u : Int) (hwf : WFStore st) :
    (get_nickname st g u = none → remove_nickname attempt st g u = (false, st)) ∧
    (∀ e, get_nickname st g u = some e →
      (remove_nickname attempt st g u).1 = true ∧
      has_nickname (remove_nickname attempt st g u).2 g u = false ∧
      (get_group_count st g = 1 → dictGet g (remove_nickname attempt st g u).2 = none) ∧
      remove_nickname attempt2 (remove_nickname attempt st g u).2 g u =
        (false, (remove_nickname attempt st g u).2)) := by
  constructor
  · intro hnone
    rcases hg : dictGet g st with _ | gd
    · simp [remove_nickname, hg]
    · simp only [get_nickname, hg] at hnone
      simp [remove_nickname, hg, hnone]
  · intro e hsome
    rcases hg : dictGet g st with _ | gd
    · simp only [get_nickname, hg] at hsome
      exact absurd hsome (by simp)
    · simp only [get_nickname, hg] at hsome
      have hgdnd : (gd.map Prod.fst).Nodup := hwf.2 (g, gd) (dictGet_mem hg)
      have herase : dictGet u (dictErase u gd) = none := dictGet_erase_self hgdnd
      by_cases hemp : dictErase u gd = []
      · have hres : remove_nickname attempt st g u = (true, dictErase g st) := by
          simp [remove_nickname, hg, hsome, hemp]
        have hgone : dictGet g (dictErase g st) = none := dictGet_erase_self hwf.1
        refine ⟨by simp [hres], ?_, ?_, ?_⟩
        · rw [hres]
          simp [has_nickname, hgone]
        · intro _
          rw [hres, hgone]
        · rw [hres]
          simp [remove_nickname, hgone]
      · have hres : remove_nickname attempt st g u =
            (true, dictInsert g (dictErase u gd) st) := by
          simp [remove_nickname, hg, hsome, hemp]
        refine ⟨by simp [hres], ?_, ?_, ?_⟩
        · rw [hres]
          simp [has_nickname, dictGet_insert_self, herase]
        · intro hcount
          simp only [get_group_count, hg] at hcount
          have hlen := length_dictErase_of_get_some hsome
          have hlen0 : (dictErase u gd).length = 0 := by omega
          rw [List.length_eq_zero] at hlen0
          exact absurd hlen0 hemp
        · rw [hres]
          simp [remove_nickname, dictGet_insert_self, herase]

/-- C6: when the persistence step triggered by a mutating operation fails after
exhausting its retries (save_data reports false: every attempt failed), the
operation still returns true to its caller and the in-memory mutation is
retained, not rolled back.  WFStore is the automatic key-uniqueness of the
embedded Python dicts. -/
theorem save_failure_soft (attempt : Nat → Bool) (st : StoreData) (g u : Int)
    (un nk now newNick : String) (hwf : WFStore st)
    (hfail : save_data attempt = false) :
    (un ≠ "" → nk ≠ "" → get_nickname st g u = none →
      (add_nickname attempt st g u un nk now).1 = true ∧
      get_nickname (add_nickname attempt st g u un nk now).2 g u =
        some ⟨u, un, nk, now⟩) ∧
    (newNick ≠ "" → ∀ e, get_nickname st g u = some e →
      (update_nickname attempt st g u newNick).1 = true ∧
      get_nickname (update_nickname attempt st g u newNick).2 g u =
        some ⟨e.user_id, e.username, newNick, e.added_at⟩) ∧
    (∀ e, get_nickname st g u = some e →
      (remove_nickname attempt st g u).1 = true ∧
      has_nickname (remove_nickname attempt st g u).2 g u = false) := by
  refine ⟨?_, ?_, ?_⟩
  · intro hun hnk hnone
    have hdup : (dictGet u ((dictGet g st).getD [])).isSome = false := by
      rcases hg : dictGet g st with _ | gd
      · simp [dictGet]
      · simp only [get_nickname, hg] at hnone
        simp [hnone]
    have hres : add_nickname attempt st g u un nk now =
        (true, dictInsert g (dictInsert u ⟨u, un, nk, now⟩ ((dictGet g st).getD [])) st) := by
      rw [add_nickname_eq]
      simp [hun, hnk, hdup]
    rw [hres]
    exact ⟨rfl, by simp [get_nickname, dictGet_insert_self]⟩
  · intro hne e hsome
    have h := (update_nickname_spec attempt st g u newNick).2.2 e hsome hne
    exact ⟨h.1, h.2.1⟩
  · intro e hsome
    have h := (remove_nickname_spec attempt attempt st g u hwf).2 e hsome
    exact ⟨h.1, h.2.1⟩

/-- C7: constructing the store against a backing file whose content does not
parse as JSON (json.load raises, modelled by parse outcome none; the literal
file text not valid json is such a content) succeeds and yields the empty
mapping, every conversation has count 0, and the store stays writable: a
subsequent valid add returns true and get_nickname returns the record just
added. -/
theorem corrupt_file_recovery (c g u : Int) (un nk now : String)
    (attempt : Nat → Bool) (hun : un ≠ "") (hnk : nk ≠ "") :
    get_group_count (load_data none) c = 0 ∧
    (add_nickname attempt (load_data none) g u un nk now).1 = true ∧
    get_nickname (add_nickname attempt (load_data none) g u un nk now).2 g u =
      some ⟨u, un, nk, now⟩ := by
  have hres : add_nickname attempt (load_data none) g u un nk now =
      (true, dictInsert g (dictInsert u ⟨u, un, nk, now⟩ []) []) := by
    rw [add_nickname_eq]
    simp [load_data, hun, hnk, dictGet]
  refine ⟨by simp [load_data, get_group_count, dictGet], by simp [hres], ?_⟩
  rw [hres]
  simp [get_nickname, dictGet_insert_self]

theorem entryLe_trans (a b c : NicknameEntry) (h1 : entryLe a b) (h2 : entryLe b c) :
    entryLe a c := by
  simp only [entryLe, decide_eq_true_eq] at *
  exact le_trans h1 h2

theorem entryLe_total (a b : NicknameEntry) : entryLe a b || entryLe b a := by
  simp only [entryLe, Bool.or_eq_true, decide_eq_true_eq]
  exact le_total a.added_at b.added_at

theorem get_all_eq_mergeSort (st : StoreData) (g : Int) :
    get_all_nicknames st g = (groupEntries st g).mergeSort entryLe := by
  rcases h : dictGet g st with _ | gd <;>
    simp [get_all_nicknames, groupEntries, h]

theorem sorted_perm_unique {l₁ l₂ : List NicknameEntry} (hp : l₁.Perm l₂)
    (hs₁ : l₁.Pairwise (fun a b => entryLe a b = true))
    (hs₂ : l₂.Pairwise (fun a b => entryLe a b = true))
    (hn : (l₁.map (fun e => e.added_at)).Nodup) : l₁ = l₂ := by
  have hne₁ : l₁.Pairwise (fun a b => a.added_at ≠ b.added_at) :=
    (List.pairwise_map).mp hn
  have hn₂ : (l₂.map (fun e => e.added_at)).Nodup := ((hp.map _).nodup hn)
  have hne₂ : l₂.Pairwise (fun a b => a.added_at ≠ b.added_at) :=
    (List.pairwise_map).mp hn₂
  have hlt₁ : l₁.Pairwise (fun a b => a.added_at < b.added_at) :=
    (hs₁.and hne₁).imp (fun h => by
      rcases h with ⟨h1, h2⟩
      simp only [entryLe, decide_eq_true_eq] at h1
      exact lt_of_le_of_ne h1 h2)
  have hlt₂ : l₂.Pairwise (fun a b => a.added_at < b.added_at) :=
    (hs₂.and hne₂).imp (fun h => by
      rcases h with ⟨h1, h2⟩
      simp only [entryLe, decide_eq_true_eq] at h1
      exact lt_of_le_of_ne h1 h2)
  haveI : IsAntisymm NicknameEntry (fun a b => a.added_at < b.added_at) :=
    ⟨fun a b h1 h2 => absurd h1 (not_lt.mpr (le_of_lt h2))⟩
  exact List.eq_of_perm_of_sorted hp hlt₁ hlt₂

/-- C1: get_all_nicknames returns exactly the records currently stored for the
conversation (a permutation of them), sorted ascending by added_at; and, when
the added_at keys are pairwise distinct, the listing is determined by the set of
stored records alone, independently of the order in which the underlying map
holds them; being a function of the state, two calls against unchanged data
return the same sequence. -/
theorem get_all_nicknames_spec (st : StoreData) (g : Int) :
    (get_all_nicknames st g).Perm (groupEntries st g) ∧
    (get_all_nicknames st g).Pairwise (fun a b => a.added_at ≤ b.added_at) ∧
    (∀ st' : StoreData, (groupEntries st' g).Perm (groupEntries st g) →
      ((groupEntries st g).map (fun e => e.added_at)).Nodup →
      get_all_nicknames st' g = get_all_nicknames st g) := by
  refine ⟨?_, ?_, ?_⟩
  · rw [get_all_eq_mergeSort]
    exact List.mergeSort_perm _ _
  · rw [get_all_eq_mergeSort]
    have hs := List.sorted_mergeSort entryLe_trans entryLe_total (groupEntries st g)
    exact hs.imp (fun h => by
      simpa only [entryLe, decide_eq_true_eq] using h)
  · intro st' hperm hnd
    rw [get_all_eq_mergeSort, get_all_eq_mergeSort]
    have hp : ((groupEntries st' g).mergeSort entryLe).Perm
        ((groupEntries st g).mergeSort entryLe) :=
      ((List.mergeSort_perm _ _).trans hperm).trans (List.mergeSort_perm _ _).symm
    have hnd' : (((groupEntries st g).mergeSort entryLe).map
        (fun e => e.added_at)).Nodup :=
      ((List.mergeSort_perm (groupEntries st g) entryLe).symm.map _).nodup hnd
    have hnd'' : (((groupEntries st' g).mergeSort entryLe).map
        (fun e => e.added_at)).Nodup := (hp.symm.map _).nodup hnd'
    exact sorted_perm_unique hp
      (List.sorted_mergeSort entryLe_trans entryLe_total _)
      (List.sorted_mergeSort entryLe_trans entryLe_total _) hnd''

theorem dictInsert_ne_nil {α : Type} (k : Int) (v : α) (m : List (Int × α)) :
    dictInsert k v m ≠ [] := by
  cases m with
  | nil => simp [dictInsert]
  | cons p rest =>
    by_cases hp : p.1 = k <;> simp [dictInsert, hp]

theorem nickOK_add (attempt : Nat → Bool) (st : StoreData) (g u : Int)
    (un nk now : String) (hnk : nk ≠ "" ∧ nk.length ≤ MAX_NICKNAME_LENGTH)
    (h : NickOK st) : NickOK (add_nickname attempt st g u un nk now).2 := by
  rw [add_nickname_eq]
  split_ifs with h1 h2 h3
  · exact h
  · exact h
  · exact h
  · intro p hp q hq
    rcases mem_dictInsert hp with rfl | hps
    · rcases mem_dictInsert hq with rfl | hqs
      · exact hnk
      · rcases hg : dictGet g st with _ | gd0
        · rw [hg] at hqs
          simp at hqs
        · rw [hg] at hqs
          simp only [Option.getD_some] at hqs
          exact h (g, gd0) (dictGet_mem hg) q hqs
    · exact h p hps q hq

theorem nickOK_update (attempt : Nat → Bool) (st : StoreData) (g u : Int)
    (nk : String) (hnk : nk ≠ "" ∧ nk.length ≤ MAX_NICKNAME_LENGTH)
    (h : NickOK st) : NickOK (update_nickname attempt st g u nk).2 := by
  by_cases he : nk = ""
  · simpa [update_nickname, he] using h
  · rcases hg : dictGet g st with _ | gd
    · simpa [update_nickname, he, hg] using h
    · rcases hu : dictGet u gd with _ | e
      · simpa [update_nickname, he, hg, hu] using h
      · have hst : (update_nickname attempt st g u nk).2 =
            dictInsert g (dictInsert u { e with nickname := nk } gd) st := by
          simp [update_nickname, he, hg, hu]
        rw [hst]
        intro p hp q hq
        rcases mem_dictInsert hp with rfl | hps
        · rcases mem_dictInsert hq with rfl | hqs
          · exact hnk
          · exact h (g, gd) (dictGet_mem hg) q hqs
        · exact h p hps q hq

theorem nickOK_remove (attempt : Nat → Bool) (st : StoreData) (g u : Int)
    (h : NickOK st) : NickOK (remove_nickname attempt st g u).2 := by
  rcases hg : dictGet g st with _ | gd
  · simpa [remove_nickname, hg] using h
  · rcases hu : dictGet u gd with _ | e
    · simpa [remove_nickname, hg, hu] using h
    · by_cases hemp : dictErase u gd = []
      · have hst : (remove_nickname attempt st g u).2 = dictErase g st := by
          simp [remove_nickname, hg, hu, hemp]
        rw [hst]
        intro p hp q hq
        exact h p (mem_dictErase hp) q hq
      · have hst : (remove_nickname attempt st g u).2 =
            dictInsert g (dictErase u gd) st := by
          simp [remove_nickname, hg, hu, hemp]
        rw [hst]
        intro p hp q hq
        rcases mem_dictInsert hp with rfl | hps
        · exact h (g, gd) (dictGet_mem hg) q (mem_dictErase hq)
        · exact h p hps q hq

/-- C8 counterexample: add_nickname itself never checks MAX_NICKNAME_LENGTH
(that check lives in validate_nickname, which only the command handlers call),
so a direct add of a 51-character nickname to the empty store succeeds and the
stored nickname exceeds the configured maximum. -/
theorem nickname_length_counterexample :
    (add_nickname (fun _ => true) [] (-100) 111 ("alice") nick51 ("t1")).1 = true ∧
    get_nickname (add_nickname (fun _ => true) [] (-100) 111 ("alice") nick51 ("t1")).2
      (-100) 111 = some ⟨111, ("alice"), nick51, ("t1")⟩ ∧
    MAX_NICKNAME_LENGTH < nick51.length := by
  refine ⟨by decide, by decide, by decide⟩

/-- C8 amended: in every store state reachable from the empty store by
add / update / remove calls whose nickname arguments are non-empty and at most
MAX_NICKNAME_LENGTH characters (the shape every nickname has after the
handlers' validate_nickname gate), every stored nickname is non-empty and
within the maximum; the length bound itself is enforced by the validation
layer, not by the store. -/
theorem nickname_invariant_amended (st : StoreData) (h : ReachableValid st) :
    NickOK st := by
  induction h with
  | init =>
    intro p hp
    simp at hp
  | addStep attempt st g u un nk now hnk h ih => exact nickOK_add attempt st g u un nk now hnk ih
  | updateStep attempt st g u nk hnk h ih => exact nickOK_update attempt st g u nk hnk ih
  | removeStep attempt st g u h ih => exact nickOK_remove attempt st g u ih

/-- C8 amended witness at a concrete reachable state. -/
theorem nickname_invariant_witness :
    NickOK (add_nickname (fun _ => true) [] (-100) 111 ("alice") ("Ally") ("t1")).2 :=
  nickname_invariant_amended _
    (ReachableValid.addStep (fun _ => true) [] (-100) 111 ("alice") ("Ally") ("t1")
      (by decide) ReachableValid.init)

theorem noEmpty_add (attempt : Nat → Bool) (st : StoreData) (g u : Int)
    (un nk now : String) (h : NoEmptyGroups st) :
    NoEmptyGroups (add_nickname attempt st g u un nk now).2 := by
  rw [add_nickname_eq]
  split_ifs with h1 h2 h3
  · exact h
  · exact h
  · exact h
  · intro p hp
    rcases mem_dictInsert hp with rfl | hps
    · exact dictInsert_ne_nil _ _ _
    · exact h p hps

theorem noEmpty_update (attempt : Nat → Bool) (st : StoreData) (g u : Int)
    (nk : String) (h : NoEmptyGroups st) :
    NoEmptyGroups (update_nickname attempt st g u nk).2 := by
  by_cases he : nk = ""
  · simpa [update_nickname, he] using h
  · rcases hg : dictGet g st with _ | gd
    · simpa [update_nickname, he, hg] using h
    · rcases hu : dictGet u gd with _ | e
      · simpa [update_nickname, he, hg, hu] using h
      · have hst : (update_nickname attempt st g u nk).2 =
            dictInsert g (dictInsert u { e with nickname := nk } gd) st := by
          simp [update_nickname, he, hg, hu]
        rw [hst]
        intro p hp
        rcases mem_dictInsert hp with rfl | hps
        · exact dictInsert_ne_nil _ _ _
        · exact h p hps

theorem noEmpty_remove (attempt : Nat → Bool) (st : StoreData) (g u : Int)
    (h : NoEmptyGroups st) : NoEmptyGroups (remove_nickname attempt st g u).2 := by
  rcases hg : dictGet g st with _ | gd
  · simpa [remove_nickname, hg] using h
  · rcases hu : dictGet u gd with _ | e
    · simpa [remove_nickname, hg, hu] using h
    · by_cases hemp : dictErase u gd = []
      · have hst : (remove_nickname attempt st g u).2 = dictErase g st := by
          simp [remove_nickname, hg, hu, hemp]
        rw [hst]
        intro p hp
        exact h p (mem_dictErase hp)
      · have hst : (remove_nickname attempt st g u).2 =
            dictInsert g (dictErase u gd) st := by
          simp [remove_nickname, hg, hu, hemp]
        rw [hst]
        intro p hp
        rcases mem_dictInsert hp with rfl | hps
        · exact hemp
        · exact h p hps

/-- C9 counterexample: load_data creates the per-conversation dict before
filling it (self.data[group_id] = {}, storage.py line 73), so loading a file
whose parsed content is the object with the single conversation entry -100
mapped to an empty object leaves a dangling empty conversation entry in the
top-level mapping, violating the claimed invariant for load-reachable states. -/
theorem empty_group_counterexample :
    dictGet (-100) (load_data (some (JsonValue.jobj [("-100", JsonValue.jobj [])]))) =
      some ([] : GroupData) := by
  decide

/-- C9 amended: in every store state reachable from the empty store by
add / update / remove calls the top-level mapping contains no conversation
entry with an empty per-conversation map; the load path, however, can introduce
such entries when the persisted file contains a conversation object that is
empty or all of whose entries are skipped. -/
theorem no_empty_groups_amended (st : StoreData) (h : ReachableOp st) :
    NoEmptyGroups st := by
  induction h with
  | init =>
    intro p hp
    simp at hp
  | addStep attempt st g u un nk now h ih => exact noEmpty_add attempt st g u un nk now ih
  | updateStep attempt st g u nk h ih => exact noEmpty_update attempt st g u nk ih
  | removeStep attempt st g u h ih => exact noEmpty_remove attempt st g u ih

/-- C9 amended witness at a concrete reachable state. -/
theorem no_empty_groups_witness :
    NoEmptyGroups (remove_nickname (fun _ => false)
      (add_nickname (fun _ => true) [] (-100) 111 ("alice") ("Ally") ("t1")).2
      (-100) 111).2 :=
  no_empty_groups_amended _
    (ReachableOp.removeStep (fun _ => false) _ (-100) 111
      (ReachableOp.addStep (fun _ => true) [] (-100) 111 ("alice") ("Ally") ("t1")
        ReachableOp.init))

theorem digitChar_toNat {d : Nat} (h : d < 10) : (digitChar d).toNat = 48 + d := by
  interval_cases d <;> decide

theorem isDigitChar_digitChar {d : Nat} (h : d < 10) : isDigitChar (digitChar d) = true := by
  interval_cases d <;> decide

theorem isDigitChar_ne_minus {c : Char} (h : isDigitChar c = true) : c ≠ '-' := by
  intro hc
  rw [hc] at h
  exact absurd h (by decide)

theorem encNatChars_ne_nil (n : Nat) : encNatChars n ≠ [] := by
  rw [encNatChars]
  split
  · simp
  · simp

theorem encNatChars_all_digits (n : Nat) : (encNatChars n).all isDigitChar = true := by
  induction n using Nat.strong_induction_on with
  | _ n ih =>
    rw [encNatChars]
    split
    next h => simp [isDigitChar_digitChar h]
    next h =>
      rw [List.all_append]
      have h1 := ih (n / 10) (Nat.div_lt_self (by omega) (by omega))
      have h2 : isDigitChar (digitChar (n % 10)) = true :=
        isDigitChar_digitChar (Nat.mod_lt n (by omega))
      simp [h1, h2]

theorem valNatChars_append (xs : List Char) (c : Char) :
    valNatChars (xs ++ [c]) = valNatChars xs * 10 + (c.toNat - 48) := by
  simp [valNatChars, List.foldl_append]

theorem valNat_encNat (n : Nat) : valNatChars (encNatChars n) = n := by
  induction n using Nat.strong_induction_on with
  | _ n ih =>
    rw [encNatChars]
    split
    next h =>
      simp [valNatChars, digitChar_toNat h]
    next h =>
      rw [valNatChars_append, ih (n / 10) (Nat.div_lt_self (by omega) (by omega)),
        digitChar_toNat (Nat.mod_lt n (by omega))]
      omega

theorem decNat_encNat (n : Nat) : decNatChars (encNatChars n) = some n := by
  rw [decNatChars, if_pos ⟨encNatChars_ne_nil n, encNatChars_all_digits n⟩,
    valNat_encNat]

theorem decIntChars_encIntChars (i : Int) : decIntChars (encIntChars i) = some i := by
  by_cases h : i < 0
  · rw [encIntChars, if_pos h]
    have hstep : decIntChars ('-' :: encNatChars i.natAbs) =
        (decNatChars (encNatChars i.natAbs)).map (fun n => -(n : Int)) := by
      simp [decIntChars]
    rw [hstep, decNat_encNat]
    have habs : ((i.natAbs : Int)) = -i := Int.ofNat_natAbs_of_nonpos (le_of_lt h)
    simp [habs]
  · rw [encIntChars, if_neg h]
    rcases hc : encNatChars i.toNat with _ | ⟨c, cs⟩
    · exact absurd hc (encNatChars_ne_nil _)
    · have hdig : isDigitChar c = true := by
        have hall := encNatChars_all_digits i.toNat
        rw [hc] at hall
        rw [List.all_cons, Bool.and_eq_true_iff] at hall
        exact hall.1
      have hstep : decIntChars (c :: cs) =
          (decNatChars (c :: cs)).map (fun n => (n : Int)) := by
        simp [decIntChars, isDigitChar_ne_minus hdig]
      rw [hstep, ← hc, decNat_encNat]
      have htn : ((i.toNat : Int)) = i := Int.toNat_of_nonneg (not_lt.mp h)
      simp [htn]

theorem decInt_encInt (i : Int) : decInt (encInt i) = some i :=
  decIntChars_encIntChars i

theorem entryOfJson_serializeEntry (e : NicknameEntry) :
    entryOfJson (serializeEntry e) = some e := rfl

theorem groupFields_foldl (gd : GroupData) : ∀ acc : GroupData,
    (∀ q ∈ gd, dictGet q.1 acc = none) → (gd.map Prod.fst).Nodup →
    ((gd.map (fun q => (encInt q.1, serializeEntry q.2))).foldl
      (fun gd2 p =>
        match decInt p.1 with
        | none => gd2
        | some u =>
          match entryOfJson p.2 with
          | none => gd2
          | some e => dictInsert u e gd2) acc) = acc ++ gd := by
  induction gd with
  | nil =>
    intro acc _ _
    simp
  | cons q rest ih =>
    intro acc hfresh hnd
    obtain ⟨u, e⟩ := q
    simp only [List.map_cons, List.foldl_cons, decInt_encInt, entryOfJson_serializeEntry]
    have hacc : dictInsert u e acc = acc ++ [(u, e)] :=
      dictInsert_of_get_none e (hfresh (u, e) (List.mem_cons_self _ _))
    rw [hacc]
    simp only [List.map_cons, List.nodup_cons] at hnd
    have hfresh' : ∀ q' ∈ rest, dictGet q'.1 (acc ++ [(u, e)]) = none := by
      intro q' hq'
      rw [dictGet_append]
      have h1 : dictGet q'.1 acc = none := hfresh q' (List.mem_cons_of_mem _ hq')
      have h2 : dictGet q'.1 [(u, e)] = none := by
        have hne : u ≠ q'.1 := by
          intro hc
          exact hnd.1 (hc ▸ List.mem_map_of_mem Prod.fst hq')
        simp [dictGet, hne]
      rw [h1, h2]
      rfl
    rw [ih (acc ++ [(u, e)]) hfresh' hnd.2]
    simp

theorem groupFieldsLoad_roundtrip (gd : GroupData)
    (hnd : (gd.map Prod.fst).Nodup) :
    groupFieldsLoad (gd.map (fun q => (encInt q.1, serializeEntry q.2))) = gd := by
  have h := groupFields_foldl gd [] (fun q _ => rfl) hnd
  simpa [groupFieldsLoad] using h

theorem loadJson_foldl (st : StoreData) : ∀ acc : StoreData,
    (∀ p ∈ st, dictGet p.1 acc = none) → WFStore st →
    ((st.map (fun p =>
        (encInt p.1, JsonValue.jobj (p.2.map (fun q => (encInt q.1, serializeEntry q.2)))))).foldl
      (fun st2 p =>
        match decInt p.1 with
        | none => st2
        | some g =>
          match p.2 with
          | .jobj ufields => dictInsert g (groupFieldsLoad ufields) st2
          | _ => st2) acc) = acc ++ st := by
  induction st with
  | nil =>
    intro acc _ _
    simp
  | cons p rest ih =>
    intro acc hfresh hwf
    obtain ⟨g, gd⟩ := p
    have hgd : groupFieldsLoad (gd.map (fun q => (encInt q.1, serializeEntry q.2))) = gd :=
      groupFieldsLoad_roundtrip gd (hwf.2 (g, gd) (List.mem_cons_self _ _))
    simp only [List.map_cons, List.foldl_cons, decInt_encInt, hgd]
    have hacc : dictInsert g gd acc = acc ++ [(g, gd)] :=
      dictInsert_of_get_none gd (hfresh (g, gd) (List.mem_cons_self _ _))
    rw [hacc]
    have hnd := hwf.1
    simp only [List.map_cons, List.nodup_cons] at hnd
    have hfresh' : ∀ p' ∈ rest, dictGet p'.1 (acc ++ [(g, gd)]) = none := by
      intro p' hp'
      rw [dictGet_append]
      have h1 : dictGet p'.1 acc = none := hfresh p' (List.mem_cons_of_mem _ hp')
      have h2 : dictGet p'.1 [(g, gd)] = none := by
        have hne : g ≠ p'.1 := by
          intro hc
          exact hnd.1 (hc ▸ List.mem_map_of_mem Prod.fst hp')
        simp [dictGet, hne]
      rw [h1, h2]
      rfl
    have hwf' : WFStore rest :=
      ⟨hnd.2, fun p' hp' => hwf.2 p' (List.mem_cons_of_mem _ hp')⟩
    rw [ih (acc ++ [(g, gd)]) hfresh' hwf']
    simp

theorem loadJson_serializeData (st : StoreData) (hwf : WFStore st) :
    loadJson (serializeData st) = st := by
  have h := loadJson_foldl st [] (fun p _ => rfl) hwf
  simpa [loadJson, serializeData] using h

theorem wf_insert {st : StoreData} {g : Int} {gd' : GroupData}
    (hwf : WFStore st) (hgd : (gd'.map Prod.fst).Nodup) :
    WFStore (dictInsert g gd' st) := by
  constructor
  · by_cases hg : g ∈ st.map Prod.fst
    · rw [keys_dictInsert_of_mem _ hg]
      exact hwf.1
    · rw [dictInsert_of_get_none _ ((dictGet_eq_none_iff g st).mpr hg), List.map_append]
      simp [List.nodup_append, hwf.1, hg]
  · intro p hp
    rcases mem_dictInsert hp with rfl | hps
    · exact hgd
    · exact hwf.2 p hps

theorem wf_erase {st : StoreData} (g : Int) (hwf : WFStore st) :
    WFStore (dictErase g st) := by
  constructor
  · exact (keys_dictErase_sublist g st).nodup hwf.1
  · intro p hp
    exact hwf.2 p (mem_dictErase hp)

theorem wf_add (attempt : Nat → Bool) (st : StoreData) (g u : Int)
    (un nk now : String) (hwf : WFStore st) :
    WFStore (add_nickname attempt st g u un nk now).2 := by
  rw [add_nickname_eq]
  split_ifs with h1 h2 h3
  · exact hwf
  · exact hwf
  · exact hwf
  · have hgd : (((dictGet g st).getD []).map Prod.fst).Nodup := by
      rcases hg : dictGet g st with _ | gd0
      · simp
      · simpa using hwf.2 (g, gd0) (dictGet_mem hg)
    have hu : dictGet u ((dictGet g st).getD []) = none :=
      Option.not_isSome_iff_eq_none.mp (by simpa using h3)
    have hkeys : ((dictInsert u ⟨u, un, nk, now⟩ ((dictGet g st).getD [])).map
        Prod.fst).Nodup := by
      rw [dictInsert_of_get_none _ hu, List.map_append]
      simp [List.nodup_append, hgd, (dictGet_eq_none_iff u _).mp hu]
    exact wf_insert hwf hkeys

theorem wf_update (attempt : Nat → Bool) (st : StoreData) (g u : Int)
    (nk : String) (hwf : WFStore st) :
    WFStore (update_nickname attempt st g u nk).2 := by
  by_cases he : nk = ""
  · simpa [update_nickname, he] using hwf
  · rcases hg : dictGet g st with _ | gd
    · simpa [update_nickname, he, hg] using hwf
    · rcases hu : dictGet u gd with _ | e
      · simpa [update_nickname, he, hg, hu] using hwf
      · have hst : (update_nickname attempt st g u nk).2 =
            dictInsert g (dictInsert u { e with nickname := nk } gd) st := by
          simp [update_nickname, he, hg, hu]
        rw [hst]
        have hmem : u ∈ gd.map Prod.fst :=
          (dictGet_isSome_iff u gd).mp (by simp [hu])
        have hkeys : ((dictInsert u { e with nickname := nk } gd).map Prod.fst).Nodup := by
          rw [keys_dictInsert_of_mem _ hmem]
          simpa using hwf.2 (g, gd) (dictGet_mem hg)
        exact wf_insert hwf hkeys

theorem wf_remove (attempt : Nat → Bool) (st : StoreData) (g u : Int)
    (hwf : WFStore st) : WFStore (remove_nickname attempt st g u).2 := by
  rcases hg : dictGet g st with _ | gd
  · simpa [remove_nickname, hg] using hwf
  · rcases hu : dictGet u gd with _ | e
    · simpa [remove_nickname, hg, hu] using hwf
    · by_cases hemp : dictErase u gd = []
      · have hst : (remove_nickname attempt st g u).2 = dictErase g st := by
          simp [remove_nickname, hg, hu, hemp]
        rw [hst]
        exact wf_erase g hwf
      · have hst : (remove_nickname attempt st g u).2 =
            dictInsert g (dictErase u gd) st := by
          simp [remove_nickname, hg, hu, hemp]
        rw [hst]
        have hkeys : ((dictErase u gd).map Prod.fst).Nodup :=
          (keys_dictErase_sublist u gd).nodup
            (by simpa using hwf.2 (g, gd) (dictGet_mem hg))
        exact wf_insert hwf hkeys

theorem wf_runOps (st : StoreData) (ops : List StoreOp) (hwf : WFStore st) :
    WFStore (runOps st ops) := by
  induction ops generalizing st with
  | nil => exact hwf
  | cons op rest ih =>
    rw [runOps, List.foldl_cons]
    rcases op with ⟨attempt, g, u, un, nk, now⟩ | ⟨attempt, g, u, nk⟩ | ⟨attempt, g, u⟩
    · exact ih _ (wf_add attempt st g u un nk now hwf)
    · exact ih _ (wf_update attempt st g u nk hwf)
    · exact ih _ (wf_remove attempt st g u hwf)

/-- C2: after any sequence of add / update / remove calls against a store whose
backing file F holds the save_data serialisation of the final state (the state
every successful save writes, since mutating calls save and failed calls leave
the state unchanged), constructing a fresh store by loading F reproduces the
original store exactly, so its has_nickname, get_nickname and get_all_nicknames
results all agree with the original.  WFStore is the automatic key-uniqueness of
the embedded Python dicts. -/
theorem save_load_roundtrip (st0 : StoreData) (ops : List StoreOp)
    (hwf : WFStore st0) :
    load_data (some (serializeData (runOps st0 ops))) = runOps st0 ops ∧
    (∀ g u, has_nickname (load_data (some (serializeData (runOps st0 ops)))) g u =
      has_nickname (runOps st0 ops) g u) ∧
    (∀ g u, get_nickname (load_data (some (serializeData (runOps st0 ops)))) g u =
      get_nickname (runOps st0 ops) g u) ∧
    (∀ g, get_all_nicknames (load_data (some (serializeData (runOps st0 ops)))) g =
      get_all_nicknames (runOps st0 ops) g) := by
  have heq : load_data (some (serializeData (runOps st0 ops))) = runOps st0 ops := by
    rw [load_data]
    exact loadJson_serializeData _ (wf_runOps st0 ops hwf)
  rw [heq]
  exact ⟨rfl, fun _ _ => rfl, fun _ _ => rfl, fun _ => rfl⟩

/-- C1 witness: the two-record conversation listed from either map order. -/
theorem get_all_nicknames_witness :
    get_all_nicknames sampleStoreBA (-100) = get_all_nicknames sampleStoreAB (-100) :=
  (get_all_nicknames_spec sampleStoreAB (-100)).2.2 sampleStoreBA (by decide) (by decide)

/-- C2 witness: a one-add run, saved and reloaded. -/
theorem save_load_roundtrip_witness :
    load_data (some (serializeData (runOps []
        [StoreOp.addOp (fun _ => true) (-100) 111 ("alice") ("Ally") ("t1")]))) =
      runOps [] [StoreOp.addOp (fun _ => true) (-100) 111 ("alice") ("Ally") ("t1")] :=
  (save_load_roundtrip []
    [StoreOp.addOp (fun _ => true) (-100) 111 ("alice") ("Ally") ("t1")]
    ⟨by decide, by decide⟩).1

/-- C3 witness: a concrete duplicate add. -/
theorem add_duplicate_witness :
    get_nickname sampleStore (-100) 111 = some ⟨111, ("alice"), ("Ally"), ("t1")⟩ ∧
    add_nickname (fun _ => false) sampleStore (-100) 111 ("x") ("Other") ("t2") =
      (false, sampleStore) :=
  add_duplicate_spec (fun _ => true) (fun _ => false) [] sampleStore (-100) 111
    ("alice") ("Ally") ("t1") ("x") ("Other") ("t2") (by decide)

/-- C4 witness: a concrete successful update with its frame condition. -/
theorem update_nickname_witness :
    (update_nickname (fun _ => false) sampleStore (-100) 111 ("AllyV2")).1 = true ∧
    get_nickname (update_nickname (fun _ => false) sampleStore (-100) 111 ("AllyV2")).2
      (-100) 111 =
      some ⟨sampleEntryA.user_id, sampleEntryA.username, ("AllyV2"), sampleEntryA.added_at⟩ ∧
    get_nickname (update_nickname (fun _ => false) sampleStore (-100) 111 ("AllyV2")).2
      (-200) 333 = get_nickname sampleStore (-200) 333 := by
  have A := (update_nickname_spec (fun _ => false) sampleStore (-100) 111 ("AllyV2")).2.2
    sampleEntryA (by decide) (by decide)
  exact ⟨A.1, A.2.1, A.2.2 (-200) 333 (by decide)⟩

/-- C5 witness: removing the only record of a conversation. -/
theorem remove_nickname_witness :
    (remove_nickname (fun _ => false) sampleStore (-100) 111).1 = true ∧
    has_nickname (remove_nickname (fun _ => false) sampleStore (-100) 111).2
      (-100) 111 = false ∧
    dictGet (-100) (remove_nickname (fun _ => false) sampleStore (-100) 111).2 = none ∧
    remove_nickname (fun _ => true)
        (remove_nickname (fun _ => false) sampleStore (-100) 111).2 (-100) 111 =
      (false, (remove_nickname (fun _ => false) sampleStore (-100) 111).2) := by
  have B := (remove_nickname_spec (fun _ => false) (fun _ => true) sampleStore (-100) 111
    ⟨by decide, by decide⟩).2 sampleEntryA (by decide)
  exact ⟨B.1, B.2.1, B.2.2.1 (by decide), B.2.2.2⟩

/-- C6 witness: all three mutating operations succeed although every save
attempt fails. -/
theorem save_failure_witness :
    (add_nickname (fun _ => false) sampleStore (-100) 222 ("bob") ("Bobby") ("t2")).1 = true ∧
    (update_nickname (fun _ => false) sampleStore (-100) 111 ("AllyV2")).1 = true ∧
    (remove_nickname (fun _ => false) sampleStore (-100) 111).1 = true := by
  have W : WFStore sampleStore := ⟨by decide, by decide⟩
  have F : save_data (fun _ => false) = false := by decide
  have A := (save_failure_soft (fun _ => false) sampleStore (-100) 222
    ("bob") ("Bobby") ("t2") ("zz") W F).1 (by decide) (by decide) (by decide)
  have U := (save_failure_soft (fun _ => false) sampleStore (-100) 111
    ("x") ("y") ("t") ("AllyV2") W F).2.1 (by decide) sampleEntryA (by decide)
  have R := (save_failure_soft (fun _ => false) sampleStore (-100) 111
    ("x") ("y") ("t") ("zz") W F).2.2 sampleEntryA (by decide)
  exact ⟨A.1, U.1, R.1⟩

/-- C7 witness at concrete inputs. -/
theorem corrupt_file_witness :
    get_group_count (load_data none) (-5) = 0 ∧
    (add_nickname (fun _ => true) (load_data none) (-100) 111
      ("alice") ("Ally") ("t1")).1 = true ∧
    get_nickname (add_nickname (fun _ => true) (load_data none) (-100) 111
      ("alice") ("Ally") ("t1")).2 (-100) 111 = some ⟨111, ("alice"), ("Ally"), ("t1")⟩ :=
  corrupt_file_recovery (-5) (-100) 111 ("alice") ("Ally") ("t1") (fun _ => true)
    (by decide) (by decide)
